import Mathlib

/-!
Verification of the `nn` package (feed-forward neural-network engine):
a shallow embedding of `nn/layer.py` and `nn/network.py` over exact
rationals, with theorems settling the specified behaviour of the layer
operations and of `Network.fit`.

Python floats are modelled by `ℚ` (exact field arithmetic); `np.exp` is
modelled by an explicit function parameter, and the activation strategy
(the `nn.activation` module, absent from the sources) is modelled from
the spec as a pair of elementwise functions.
-/

namespace NN

/-- Vectors (1-D numpy arrays) as lists of rationals. -/
abbrev Vec := List ℚ

/-- Matrices (2-D numpy arrays) as lists of rows. -/
abbrev Mat := List Vec

/-! ### numpy primitives used by `layer.py` / `network.py` -/

/-- Elementwise vector addition (`u + v` on equal-shape arrays). -/
def vecAdd (u v : Vec) : Vec := List.zipWith (· + ·) u v

/-- Elementwise vector subtraction (`u - v`). -/
def vecSub (u v : Vec) : Vec := List.zipWith (· - ·) u v

/-- Scalar-times-vector broadcast (`c * v`). -/
def vecSmul (c : ℚ) (v : Vec) : Vec := v.map (fun x => c * x)

/-- Elementwise matrix addition. -/
def matAdd (A B : Mat) : Mat := List.zipWith vecAdd A B

/-- Elementwise matrix subtraction (`A - B`). -/
def matSub (A B : Mat) : Mat := List.zipWith vecSub A B

/-- Scalar-times-matrix broadcast (`c * A`). -/
def matSmul (c : ℚ) (A : Mat) : Mat := A.map (fun r => vecSmul c r)

/-- Dot product of two vectors (`np.dot(u, v)` on 1-D arrays). -/
def dotV (u v : Vec) : ℚ := (List.zipWith (· * ·) u v).sum

/-- Column `j` of a matrix (entries `A[i][j]`). -/
def matCol (A : Mat) (j : ℕ) : Vec := A.map (fun r => r.getD j 0)

/-- Number of columns of a matrix (length of its first row). -/
def numCols (A : Mat) : ℕ := (A.headD []).length

/-- Entry `A[i][j]` of a matrix, with 0 out of range. -/
def matGet (A : Mat) (i j : ℕ) : ℚ := (A.getD i []).getD j 0

/-- Row-vector-times-matrix product (`np.dot(x, A)` with `x` 1-D). -/
def vecMatMul (x : Vec) (A : Mat) : Vec :=
  (List.range (numCols A)).map (fun j => dotV x (matCol A j))

/-- Matrix-times-matrix product (`np.dot(A, B)` with both 2-D). -/
def matMulM (A B : Mat) : Mat := A.map (fun r => vecMatMul r B)

/-- Matrix transpose (`A.T`). -/
def matTranspose (A : Mat) : Mat := (List.range (numCols A)).map (fun j => matCol A j)

/-- Diagonal matrix built from a vector (`np.diag(v)` with `v` 1-D). -/
def diagMat (v : Vec) : Mat :=
  (List.range v.length).map (fun i =>
    (List.range v.length).map (fun j => if i = j then v.getD i 0 else 0))

/-- Diagonal of a matrix (`np.diag(A)` with `A` 2-D). -/
def diagOf (A : Mat) : Vec := (List.range A.length).map (fun i => matGet A i i)

/-- Outer product (`np.outer(u, v)`). -/
def outerP (u v : Vec) : Mat := u.map (fun a => v.map (fun bb => a * bb))

/-- Elementwise application of a function to a matrix. -/
def matMap (f : ℚ → ℚ) (A : Mat) : Mat := A.map (fun r => r.map f)

/-- Row-broadcast elementwise product `v * A`: a length-`m` vector times an
`n × m` matrix multiplies every row of `A` elementwise by `v`. -/
def rowBroadcastMul (v : Vec) (A : Mat) : Mat :=
  A.map (fun r => List.zipWith (· * ·) v r)

/-- Shape predicate: `A` is an `r × c` matrix. -/
def isMat (A : Mat) (r c : ℕ) : Prop := A.length = r ∧ ∀ row ∈ A, row.length = c

instance (A : Mat) (r c : ℕ) : Decidable (isMat A r c) := by
  unfold isMat; infer_instance

/-! ### Activation strategy

Modelled from the spec: the `nn.activation` module is not among the
sources; the spec describes it as an external collaborator with
`apply(vector) -> vector` (elementwise) and `gradient(local_input) ->
elementwise derivative`.  A concrete instance, `Relu` (the default
activation of `HiddenLayer`), is modelled from the spec's "Relu-like
activation": `relu(x) = max(0, x)` with derivative `1` on positives and
`0` otherwise. -/

/-- Modelled from the spec: the Relu activation's elementwise application. -/
def reluApply (x : ℚ) : ℚ := max 0 x

/-- Modelled from the spec: the Relu activation's elementwise derivative. -/
def reluGradient (x : ℚ) : ℚ := if 0 < x then 1 else 0

/-! ### HiddenLayer (`layer.py`, class `HiddenLayer`) -/

/-- State of a `HiddenLayer`: weights `W` (`input_size × output_size`),
bias `b`, learning rate, the activation strategy instance (its elementwise
apply `act` and elementwise derivative `dact`), the two gradient buffers,
and the stored last-seen `input` and `output`. -/
structure HiddenLayer where
  W : Mat
  b : Vec
  learning_rate : ℚ
  act : ℚ → ℚ
  dact : ℚ → ℚ
  W_gradients : List Mat
  b_gradients : List Vec
  input : Vec
  output : Vec

/-- `HiddenLayer.update_parameters` (layer.py lines 50-55):
`W -= lr * np.sum(W_gradients, axis=0)`, clear `W_gradients`, then the
same for `b`.  `np.sum([], axis=0)` is the scalar `0.0`, and subtracting
the scalar `0.0` leaves the array unchanged, so the empty-buffer case
leaves `W` (resp. `b`) as it is. -/
def HiddenLayer.update_parameters (L : HiddenLayer) : HiddenLayer :=
  let W' := match L.W_gradients with
    | [] => L.W
    | g :: gs => matSub L.W (matSmul L.learning_rate (gs.foldl matAdd g))
  let b' := match L.b_gradients with
    | [] => L.b
    | g :: gs => vecSub L.b (vecSmul L.learning_rate (gs.foldl vecAdd g))
  { L with W := W', W_gradients := [], b := b', b_gradients := [] }

/-- `HiddenLayer.forward_pass` (layer.py lines 57-60): stores the input,
computes `output = activation(np.dot(X, W) + b)` elementwise, stores and
returns it. -/
def HiddenLayer.forward_pass (L : HiddenLayer) (X : Vec) : HiddenLayer :=
  { L with input := X, output := (vecAdd (vecMatMul X L.W) L.b).map L.act }

/-- `HiddenLayer.backward_pass` (layer.py lines 62-82), line by line:
`J_N_sum = activation.gradient(np.diag(J_L_N))`,
`J_N_N_prev = np.dot(J_N_sum, W.T)`,
`J_N_W_hat = np.outer(input, np.diag(J_N_sum))`,
`J_L_W = J_L_N * J_N_W_hat`, `J_L_b = np.diag(J_N_sum)`,
`J_L_N_prev = np.dot(J_L_N, J_N_N_prev)`; appends `J_L_W` and `J_L_b`
to the buffers and returns `J_L_N_prev`. -/
def HiddenLayer.backward_pass (L : HiddenLayer) (J_L_N : Vec) : HiddenLayer × Vec :=
  let J_N_sum := matMap L.dact (diagMat J_L_N)
  let J_N_N_prev := matMulM J_N_sum (matTranspose L.W)
  let J_N_W_hat := outerP L.input (diagOf J_N_sum)
  let J_L_W := rowBroadcastMul J_L_N J_N_W_hat
  let J_L_b := diagOf J_N_sum
  let J_L_N_prev := vecMatMul J_L_N J_N_N_prev
  ({ L with W_gradients := L.W_gradients ++ [J_L_W],
            b_gradients := L.b_gradients ++ [J_L_b] }, J_L_N_prev)

/-! ### SoftmaxLayer (`layer.py`, class `SoftmaxLayer`) -/

/-- Maximum entry of a vector (`np.max`, defined on non-empty input). -/
def listMax (v : List ℚ) : ℚ :=
  match v with
  | [] => 0
  | x :: xs => xs.foldl max x

/-- `SoftmaxLayer.forward_pass` computation (layer.py lines 89-93), over an
arbitrary linear ordered field, parameterised by `E` modelling `np.exp`:
`e = E(X - max(X))` elementwise, output `e / e.sum()`. -/
def softmaxForward {α : Type} [LinearOrderedField α] (E : α → α) (X : List α) : List α :=
  let m := match X with
    | [] => 0
    | x :: xs => xs.foldl max x
  let e := X.map (fun x => E (x - m))
  e.map (fun v => v / e.sum)

/-- The softmax Jacobian built by the double loop of
`SoftmaxLayer.backward_pass` (layer.py lines 95-104): every entry of the
`n × n` matrix is overwritten, with `output[i] - output[i]**2` on the
diagonal and `-output[i]*output[j]` off it. -/
def softmaxJacobian (output : Vec) : Mat :=
  (List.range output.length).map (fun i =>
    (List.range output.length).map (fun j =>
      if i = j then output.getD i 0 - output.getD i 0 ^ 2
      else -(output.getD i 0 * output.getD j 0)))

/-- `SoftmaxLayer.backward_pass` (layer.py lines 95-107): builds the
Jacobian from the stored output and returns `np.dot(J_L_S, J_S_N)`. -/
def softmaxBackward (output : Vec) (J_L_S : Vec) : Vec :=
  vecMatMul J_L_S (softmaxJacobian output)

/-! ### Layers as a closed variant type (`layer.py`: Input / Hidden / Softmax) -/

/-- A layer of the network: `InputLayer` (identity both ways),
`HiddenLayer`, or `SoftmaxLayer`.  The softmax variant carries its
`np.exp` model `E` and its stored `input` and `output`. -/
inductive NLayer where
  | inputL : NLayer
  | hiddenL (h : HiddenLayer) : NLayer
  | softmaxL (E : ℚ → ℚ) (input output : Vec) : NLayer

/-- Single-layer forward dispatch: `InputLayer.forward_pass` is the
identity; `HiddenLayer.forward_pass` as above; `SoftmaxLayer.forward_pass`
stores the input and the computed probability vector and returns it. -/
def layerForward (l : NLayer) (X : Vec) : NLayer × Vec :=
  match l with
  | .inputL => (.inputL, X)
  | .hiddenL h => let h' := h.forward_pass X; (.hiddenL h', h'.output)
  | .softmaxL E _ _ =>
      let out := softmaxForward E X
      (.softmaxL E X out, out)

/-- Single-layer backward dispatch: identity for Input, the Jacobian
computations for Hidden and Softmax. -/
def layerBackward (l : NLayer) (g : Vec) : NLayer × Vec :=
  match l with
  | .inputL => (.inputL, g)
  | .hiddenL h => let (h', g') := h.backward_pass g; (.hiddenL h', g')
  | .softmaxL E i o => (.softmaxL E i o, softmaxBackward o g)

/-- `Network._forward_pass` (network.py lines 46-56): threads the sample
through every layer in order, each layer updating its stored state. -/
def netForward (ls : List NLayer) (X : Vec) : List NLayer × Vec :=
  match ls with
  | [] => ([], X)
  | l :: rest =>
      let (l', y) := layerForward l X
      let (rest', out) := netForward rest y
      (l' :: rest', out)

/-- `Network._backward_pass` (network.py lines 58-65): threads the loss
gradient through the layers in reverse order (`self.layers[::-1]`). -/
def netBackward (ls : List NLayer) (g : Vec) : List NLayer × Vec :=
  match ls with
  | [] => ([], g)
  | l :: rest =>
      let (rest', g') := netBackward rest g
      let (l', g'') := layerBackward l g'
      (l' :: rest', g'')

/-- `Network._update_parameters` (network.py lines 67-72): calls
`update_parameters` on exactly the layers of type `HiddenLayer`. -/
def netUpdate (ls : List NLayer) : List NLayer :=
  ls.map (fun l => match l with
    | .hiddenL h => .hiddenL h.update_parameters
    | x => x)

/-- The `Network` state: the ordered layer list, the loss strategy
instance (its scalar evaluation `lossF` and its gradient `lossGrad`,
modelling the `nn.loss` collaborator), hyperparameters, and the four
history sequences of `(epoch, value)` pairs. -/
structure Network where
  layers : List NLayer
  lossF : Vec → Vec → ℚ
  lossGrad : Vec → Vec → Vec
  learning_rate : ℚ
  batch_size : ℕ
  wreg : ℚ
  wrt : Option (Mat → ℚ)
  train_loss : List (ℕ × ℚ)
  val_loss : List (ℕ × ℚ)
  train_accuracy : List (ℕ × ℚ)
  val_accuracy : List (ℕ × ℚ)

/-- Index of the first maximal entry, auxiliary recursion. -/
def argmaxAux (bestIdx : ℕ) (bestVal : ℚ) (i : ℕ) : Vec → ℕ
  | [] => bestIdx
  | x :: xs => if bestVal < x then argmaxAux i x (i + 1) xs else argmaxAux bestIdx bestVal (i + 1) xs

/-- `np.argmax`: index of the first occurrence of the maximum entry. -/
def argmaxIdx (v : Vec) : ℕ :=
  match v with
  | [] => 0
  | x :: xs => argmaxAux 0 x 1 xs

/-- The one-hot prediction built in `fit` (network.py lines 126-128):
`prediction = np.zeros(y_hat.shape); prediction[np.argmax(y_hat)] = 1`. -/
def oneHotPred (y_hat : Vec) : Vec :=
  (List.range y_hat.length).map (fun k => if k = argmaxIdx y_hat then 1 else 0)

/-- The regularization term added to the running loss (network.py lines
121-124 and 157-160): `wreg * wrt(layer.W)` summed over the layers of
type `HiddenLayer`, or nothing when no regularization is configured. -/
def regTerm (net : Network) (ls : List NLayer) : ℚ :=
  match net.wrt with
  | none => 0
  | some r => (ls.map (fun l => match l with
      | .hiddenL h => net.wreg * r h.W
      | _ => 0)).sum

/-- The batch-update condition of `fit` (network.py line 137):
`(epoch*len(X_train) + i + 1) % batch_size == 0`. -/
def updateTrigger (n bs epoch i : ℕ) : Bool := (epoch * n + i + 1) % bs == 0

/-- Per-epoch training accumulator: the evolving layer list, the
aggregated train loss and the number of correct predictions. -/
structure EpochAcc where
  layers : List NLayer
  aggLoss : ℚ
  numCorrect : ℕ

/-- One iteration of the training loop body of `fit` (network.py lines
116-139) at enumerate index `i` on sample `(X, y)`: forward pass, loss
(plus regularization) accumulation, one-hot correctness check, backward
pass, and the conditional batch update. -/
def trainStep (net : Network) (n epoch : ℕ) (acc : EpochAcc) (iXy : ℕ × (Vec × Vec)) : EpochAcc :=
  let (i, (X, y)) := iXy
  let (layers1, y_hat) := netForward acc.layers X
  let aggLoss := acc.aggLoss + net.lossF y_hat y + regTerm net layers1
  let numCorrect := if oneHotPred y_hat = y then acc.numCorrect + 1 else acc.numCorrect
  let J_L_S := net.lossGrad y_hat y
  let (layers2, _) := netBackward layers1 J_L_S
  let layers3 := if updateTrigger n net.batch_size epoch i then netUpdate layers2 else layers2
  ⟨layers3, aggLoss, numCorrect⟩

/-- The whole training phase of one epoch (the `for i, (X, y) in
enumerate(zip(X_train, y_train))` loop of `fit`). -/
def trainPhase (net : Network) (pairs : List (Vec × Vec)) (epoch : ℕ) : EpochAcc :=
  pairs.enum.foldl (trainStep net pairs.length epoch) ⟨net.layers, 0, 0⟩

/-- Per-epoch validation accumulator: layers, aggregated validation loss,
correct count, and the per-class correct-count tally `val_correct`. -/
structure ValAcc where
  layers : List NLayer
  aggLoss : ℚ
  numCorrect : ℕ
  tally : List ℕ

/-- One iteration of the validation loop body of `fit` (network.py lines
154-171): forward pass only, loss (plus regularization) accumulation,
one-hot correctness check and the per-class tally update.  No backward
pass and no parameter update occur here. -/
def valStep (net : Network) (acc : ValAcc) (Xy : Vec × Vec) : ValAcc :=
  let (X, y) := Xy
  let (layers1, y_hat) := netForward acc.layers X
  let aggLoss := acc.aggLoss + net.lossF y_hat y + regTerm net layers1
  if oneHotPred y_hat = y then
    ⟨layers1, aggLoss, acc.numCorrect + 1,
      acc.tally.set (argmaxIdx y_hat) (acc.tally.getD (argmaxIdx y_hat) 0 + 1)⟩
  else
    ⟨layers1, aggLoss, acc.numCorrect, acc.tally⟩

/-- The whole validation phase of one epoch (the `for i, (X, y) in
enumerate(zip(X_val, y_val))` loop of `fit`), starting from the tally
`{x: 0 for x in range(len(y_val[0]))}`. -/
def valPhase (net : Network) (pairs : List (Vec × Vec)) (tallyLen : ℕ) : ValAcc :=
  pairs.foldl (valStep net) ⟨net.layers, 0, 0, List.replicate tallyLen 0⟩

/-- One epoch of `fit` (network.py lines 113-174): the training loop,
recording of `(epoch, mean loss)` and `(epoch, accuracy)`, then, when a
validation set is supplied, the forward-only validation loop and the
recording of the validation metrics.  The divisor of the validation mean
is `i + 1` for the last value of the Python loop variable `i`, which is
the validation sample count when the validation set is non-empty and the
leaked training-loop count otherwise. -/
def epochStep (Xt yt : List Vec) (Xv yv : Option (List Vec)) (net : Network) (epoch : ℕ) : Network :=
  let pairs := Xt.zip yt
  let n := pairs.length
  let acc := trainPhase net pairs epoch
  let net1 := { net with
    layers := acc.layers,
    train_loss := net.train_loss ++ [(epoch, acc.aggLoss / (n : ℚ))],
    train_accuracy := net.train_accuracy ++ [(epoch, (acc.numCorrect : ℚ) / (n : ℚ))] }
  match Xv, yv with
  | some xv, some yv' =>
      let vpairs := xv.zip yv'
      let vacc := valPhase net1 vpairs (yv'.headD []).length
      let denom : ℚ := if vpairs.isEmpty then (n : ℚ) else (vpairs.length : ℚ)
      { net1 with
        layers := vacc.layers,
        val_loss := net1.val_loss ++ [(epoch, vacc.aggLoss / denom)],
        val_accuracy := net1.val_accuracy ++ [(epoch, (vacc.numCorrect : ℚ) / denom)] }
  | _, _ => net1

/-- `Network.fit` (network.py lines 86-201): resets the four history
sequences, then runs `epochs` epochs.  `X_val`/`y_val` are optional; the
validation phase runs only when both are supplied (`is_validating`). -/
def Network.fit (net : Network) (Xt yt : List Vec) (Xv yv : Option (List Vec)) (epochs : ℕ) : Network :=
  let net0 := { net with train_loss := [], train_accuracy := [], val_loss := [], val_accuracy := [] }
  (List.range epochs).foldl (epochStep Xt yt Xv yv) net0

/-- The global sample indices at which `fit` triggers a parameter update
during a run of `epochs` epochs over `n` training samples: a projection of
the loop structure of network.py lines 113-139 (epoch-major order, the
counter `epoch*n + i + 1` recorded whenever `updateTrigger` fires). -/
def updateIndices (epochs n bs : ℕ) : List ℕ :=
  (List.range epochs).flatMap (fun epoch =>
    (List.range n).filterMap (fun i =>
      if updateTrigger n bs epoch i then some (epoch * n + i + 1) else none))

/-! ### Observation helpers for the theorems -/

/-- Gradient-buffer lengths of a layer: `some (|W_gradients|, |b_gradients|)`
for a `HiddenLayer`, `none` for the parameterless variants. -/
def gradLens (l : NLayer) : Option (ℕ × ℕ) :=
  match l with
  | .hiddenL h => some (h.W_gradients.length, h.b_gradients.length)
  | _ => none

/-- Every `HiddenLayer` in the list has both gradient buffers of length `k`. -/
def uniformLens (ls : List NLayer) (k : ℕ) : Prop :=
  ∀ l ∈ ls, gradLens l = none ∨ gradLens l = some (k, k)

instance (ls : List NLayer) (k : ℕ) : Decidable (uniformLens ls k) := by
  unfold uniformLens; infer_instance

/-- Trainable state of a layer list: per layer, `W`, `b` and the two
gradient buffers for a `HiddenLayer`, `none` for the other variants. -/
def hiddenParams (ls : List NLayer) : List (Option (Mat × Vec × List Mat × List Vec)) :=
  ls.map (fun l => match l with
    | .hiddenL h => some (h.W, h.b, h.W_gradients, h.b_gradients)
    | _ => none)

/-- The operations `Network.fit` performs on an individual `HiddenLayer`
during training: a forward pass, a backward pass, or a parameter update. -/
inductive HOp where
  | fwd (X : Vec)
  | bwd (g : Vec)
  | upd

/-- Apply one layer operation to a `HiddenLayer`. -/
def applyHOp (L : HiddenLayer) : HOp → HiddenLayer
  | .fwd X => L.forward_pass X
  | .bwd g => (L.backward_pass g).1
  | .upd => L.update_parameters

/-- Whether an operation is a backward pass. -/
def isBwd : HOp → Bool
  | .bwd _ => true
  | _ => false

/-- Whether an operation is a parameter update. -/
def isUpd : HOp → Bool
  | .upd => true
  | _ => false

/-- How one operation transforms the common gradient-buffer length. -/
def stepCount (k : ℕ) : HOp → ℕ
  | .fwd _ => k
  | .bwd _ => k + 1
  | .upd => 0

/-- Number of backward passes after the last parameter update of an
operation sequence (the whole count of backward passes when no update
occurs in it). -/
def sinceLastUpdate (ops : List HOp) : ℕ :=
  ((ops.reverse.takeWhile (fun o => !isUpd o)).filter isBwd).length

/-- Modelled from the spec: the downstream gradient C1 describes for a
`HiddenLayer` — the activation's local derivative built as a diagonal
matrix from the stored output (for the default Relu activation the
elementwise derivative at the stored output coincides with the
elementwise derivative at the pre-activation point on the positive and
negative ranges), with
`downstream_gradient = upstream_gradient · (local_derivative_diag · Wᵗ)`. -/
def specDownstreamGradient (L : HiddenLayer) (upstream : Vec) : Vec :=
  vecMatMul upstream (matMulM (diagMat (L.output.map L.dact)) (matTranspose L.W))

/-- A concrete 1-input 1-output Relu `HiddenLayer` with fresh buffers. -/
def cexLayer0 : HiddenLayer :=
  ⟨[[1]], [0], 1, reluApply, reluGradient, [], [], [], []⟩

/-- The layer after a matching forward call on the sample `[1]`:
pre-activation `1·1 + 0 = 1`, stored output `relu 1 = [1]`. -/
def cexLayer : HiddenLayer := cexLayer0.forward_pass [1]

/-- A concrete `Network` made of a single `InputLayer`, with a trivial
loss strategy and stale history entries left over from an earlier fit. -/
def cnet : Network :=
  ⟨[.inputL], fun _ _ => 0, fun yh _ => yh.map (fun _ => 0), 1, 32, 0, none,
    [(99, 0)], [(99, 0)], [(99, 0)], [(99, 0)]⟩

/-- A concrete three-layer `Network` (Input, Relu Hidden 1×1, Softmax)
with `batch_size = 2` and a trivial loss strategy. -/
def hnet : Network :=
  ⟨[.inputL, .hiddenL cexLayer0, .softmaxL (fun _ => 1) [] []],
    fun _ _ => 0, fun yh _ => yh.map (fun _ => 0), 1, 2, 0, none, [], [], [], []⟩

/-- A concrete `HiddenLayer` with one accumulated gradient in each buffer. -/
def wLayer : HiddenLayer :=
  ⟨[[2, 0], [0, 2]], [1, 1], 1, reluApply, reluGradient,
    [[[1, 1], [1, 1]]], [[1, 1]], [1, 1], [1, 1]⟩

/-! ## List toolkit lemmas -/

lemma getD_zipWith {α β γ : Type} (f : α → β → γ) (u : List α) (v : List β) (j : ℕ)
    (hu : j < u.length) (hv : j < v.length) (da : α) (db : β) (dc : γ) :
    (List.zipWith f u v).getD j dc = f (u.getD j da) (v.getD j db) := by
  induction u generalizing v j with
  | nil => simp at hu
  | cons a u ih =>
    cases v with
    | nil => simp at hv
    | cons b v =>
      cases j with
      | zero => rfl
      | succ j => simpa using ih v j (by simpa using hu) (by simpa using hv)

lemma getD_mem {α : Type} (l : List α) (i : ℕ) (hi : i < l.length) (d : α) :
    l.getD i d ∈ l := by
  rw [List.getD_eq_getElem?_getD, List.getElem?_eq_getElem hi, Option.getD_some]
  exact List.getElem_mem hi

lemma length_zipWith (f : ℚ → ℚ → ℚ) (u v : Vec) :
    (List.zipWith f u v).length = min u.length v.length := by
  simp

lemma getD_map_lt {α β : Type} (f : α → β) (l : List α) (i : ℕ) (hi : i < l.length)
    (d : β) (d' : α) : (l.map f).getD i d = f (l.getD i d') := by
  induction l generalizing i with
  | nil => simp at hi
  | cons a l ih =>
    cases i with
    | zero => rfl
    | succ i => simpa using ih i (by simpa using hi)

lemma getD_range_map {α : Type} (f : ℕ → α) (n k : ℕ) (hk : k < n) (d : α) :
    ((List.range n).map f).getD k d = f k := by
  rw [getD_map_lt f _ k (by simpa using hk) d 0]
  congr 1
  rw [List.getD_eq_getElem?_getD, List.getElem?_range hk, Option.getD_some]

lemma dotV_eq_sum (u v : Vec) (h : v.length = u.length) :
    dotV u v = ((List.range u.length).map (fun i => u.getD i 0 * v.getD i 0)).sum := by
  induction u generalizing v with
  | nil => simp [dotV]
  | cons a u ih =>
    cases v with
    | nil => simp at h
    | cons b v =>
      have h' : v.length = u.length := by simpa using h
      have : dotV (a :: u) (b :: v) = a * b + dotV u v := by simp [dotV]
      rw [this, ih v h', List.length_cons, List.range_succ_eq_map]
      simp [List.map_map, Function.comp_def]

lemma sum_map_div {α : Type} [DivisionRing α] (l : List α) (c : α) :
    (l.map (fun v => v / c)).sum = l.sum / c := by
  induction l with
  | nil => simp
  | cons a l ih => simp [ih, add_div]

/-! ## Shape and entry lemmas for the parameter update -/

lemma rowLen (A : Mat) (n m i : ℕ) (hA : isMat A n m) (hi : i < n) :
    (A.getD i []).length = m :=
  hA.2 _ (getD_mem A i (hA.1 ▸ hi) [])

lemma vecAdd_length (u v : Vec) (h : v.length = u.length) :
    (vecAdd u v).length = u.length := by
  simp [vecAdd, h]

lemma foldl_vecAdd_length (m : ℕ) :
    ∀ (gs : List Vec) (g : Vec), g.length = m → (∀ x ∈ gs, x.length = m) →
      (gs.foldl vecAdd g).length = m := by
  intro gs
  induction gs with
  | nil => intro g hg _; exact hg
  | cons x gs ih =>
    intro g hg hall
    have hx : x.length = m := hall x (by simp)
    have : (vecAdd g x).length = m := by rw [vecAdd_length g x (by rw [hx, hg])]; exact hg
    simpa using ih (vecAdd g x) this (fun y hy => hall y (by simp [hy]))

lemma foldl_vecAdd_getD (m j : ℕ) (hj : j < m) :
    ∀ (gs : List Vec) (g : Vec), g.length = m → (∀ x ∈ gs, x.length = m) →
      (gs.foldl vecAdd g).getD j 0 = g.getD j 0 + (gs.map (fun v => v.getD j 0)).sum := by
  intro gs
  induction gs with
  | nil => intro g _ _; simp
  | cons x gs ih =>
    intro g hg hall
    have hx : x.length = m := hall x (by simp)
    have hlen : (vecAdd g x).length = m := by
      rw [vecAdd_length g x (by rw [hx, hg])]; exact hg
    have step := ih (vecAdd g x) hlen (fun y hy => hall y (by simp [hy]))
    have hentry : (vecAdd g x).getD j 0 = g.getD j 0 + x.getD j 0 :=
      getD_zipWith (· + ·) g x j (by rw [hg]; exact hj) (by rw [hx]; exact hj) 0 0 0
    simp only [List.foldl_cons, step, hentry, List.map_cons, List.sum_cons]
    ring

lemma mem_zipWith {α β γ : Type} {f : α → β → γ} {c : γ} :
    ∀ {u : List α} {v : List β}, c ∈ List.zipWith f u v →
      ∃ a ∈ u, ∃ bb ∈ v, c = f a bb := by
  intro u
  induction u with
  | nil => intro v h; simp at h
  | cons a u ih =>
    intro v h
    cases v with
    | nil => simp at h
    | cons b v =>
      rcases List.mem_cons.mp h with h0 | h1
      · exact ⟨a, by simp, b, by simp, h0⟩
      · obtain ⟨x, hx, y, hy, rfl⟩ := ih h1
        exact ⟨x, by simp [hx], y, by simp [hy], rfl⟩

lemma matAdd_isMat (A B : Mat) (n m : ℕ) (hA : isMat A n m) (hB : isMat B n m) :
    isMat (matAdd A B) n m := by
  constructor
  · simp [matAdd, hA.1, hB.1]
  · intro row hrow
    obtain ⟨u, hu, v, hv, rfl⟩ := mem_zipWith hrow
    rw [vecAdd_length u v (by rw [hA.2 u hu, hB.2 v hv])]
    exact hA.2 u hu

lemma matAdd_matGet (A B : Mat) (n m i j : ℕ) (hA : isMat A n m) (hB : isMat B n m)
    (hi : i < n) (hj : j < m) :
    matGet (matAdd A B) i j = matGet A i j + matGet B i j := by
  unfold matGet matAdd
  rw [getD_zipWith vecAdd A B i (hA.1 ▸ hi) (hB.1 ▸ hi) [] [] []]
  exact getD_zipWith (· + ·) _ _ j (by rw [rowLen A n m i hA hi]; exact hj)
    (by rw [rowLen B n m i hB hi]; exact hj) 0 0 0

lemma foldl_matAdd_isMat (n m : ℕ) :
    ∀ (gs : List Mat) (g : Mat), isMat g n m → (∀ x ∈ gs, isMat x n m) →
      isMat (gs.foldl matAdd g) n m := by
  intro gs
  induction gs with
  | nil => intro g hg _; exact hg
  | cons x gs ih =>
    intro g hg hall
    exact ih (matAdd g x) (matAdd_isMat g x n m hg (hall x (by simp)))
      (fun y hy => hall y (by simp [hy]))

lemma foldl_matAdd_matGet (n m i j : ℕ) (hi : i < n) (hj : j < m) :
    ∀ (gs : List Mat) (g : Mat), isMat g n m → (∀ x ∈ gs, isMat x n m) →
      matGet (gs.foldl matAdd g) i j = matGet g i j + (gs.map (fun x => matGet x i j)).sum := by
  intro gs
  induction gs with
  | nil => intro g _ _; simp
  | cons x gs ih =>
    intro g hg hall
    have hx : isMat x n m := hall x (by simp)
    have step := ih (matAdd g x) (matAdd_isMat g x n m hg hx)
      (fun y hy => hall y (by simp [hy]))
    simp only [List.foldl_cons, step, matAdd_matGet g x n m i j hg hx hi hj,
      List.map_cons, List.sum_cons]
    ring

/-! ## C5: numerically stable softmax forward pass -/

/-- C5: Softmax `forward_pass` subtracts the maximum entry before applying
the exponential model `E` and normalises by the sum of the results, so for
every non-empty input (of any magnitude) and every everywhere-positive
exponential model it returns a vector of the input's length whose entries
are non-negative and sum exactly to 1. -/
theorem claim_C5_softmax_forward {α : Type} [LinearOrderedField α] (E : α → α) (X : List α)
    (hE : ∀ x, 0 < E x) (hX : X ≠ []) :
    (softmaxForward E X).length = X.length ∧
    (∀ v ∈ softmaxForward E X, 0 ≤ v) ∧
    (softmaxForward E X).sum = 1 := by
  cases X with
  | nil => exact absurd rfl hX
  | cons x xs =>
    set m := xs.foldl max x with hm
    have hform : softmaxForward E (x :: xs) =
        ((x :: xs).map (fun y => E (y - m))).map
          (fun v => v / ((x :: xs).map (fun y => E (y - m))).sum) := rfl
    set e := (x :: xs).map (fun y => E (y - m)) with he
    have hepos : ∀ v ∈ e, 0 < v := by
      intro v hv
      rw [he] at hv
      obtain ⟨y, _, rfl⟩ := List.mem_map.mp hv
      exact hE _
    have hene : e ≠ [] := by simp [he]
    have hsum : 0 < e.sum := List.sum_pos e hepos hene
    refine ⟨?_, ?_, ?_⟩
    · simp [hform, he]
    · intro v hv
      rw [hform] at hv
      obtain ⟨w, hw, rfl⟩ := List.mem_map.mp hv
      exact div_nonneg (le_of_lt (hepos w hw)) (le_of_lt hsum)
    · rw [hform, sum_map_div, div_self (ne_of_gt hsum)]

/-- Witness for C5: the theorem applied to the concrete positive
exponential model `fun _ => 1` and the concrete input `[0, 0]` over `ℚ`. -/
theorem claim_C5_witness :
    (softmaxForward (fun _ => (1 : ℚ)) [0, 0]).length = ([0, 0] : List ℚ).length ∧
    (∀ v ∈ softmaxForward (fun _ => (1 : ℚ)) [0, 0], 0 ≤ v) ∧
    (softmaxForward (fun _ => (1 : ℚ)) [0, 0]).sum = 1 :=
  claim_C5_softmax_forward (fun _ => 1) [0, 0] (fun _ => one_pos) (by decide)

/-! ## C3: the parameter update and the only-place-weights-change frame -/

/-- C3: `update_parameters` sets `W` to `W − learning_rate * Σ W_gradients`
and `b` to `b − learning_rate * Σ b_gradients` entrywise (the empty sum
being 0, matching `np.sum([], axis=0) = 0.0`), leaves both gradient
buffers empty regardless of their prior length, and neither
`forward_pass` nor `backward_pass` changes `W` or `b`. -/
theorem claim_C3_update_parameters (L : HiddenLayer) (n m : ℕ)
    (hW : isMat L.W n m) (hb : L.b.length = m)
    (hWg : ∀ g ∈ L.W_gradients, isMat g n m)
    (hbg : ∀ g ∈ L.b_gradients, g.length = m) :
    (∀ i < n, ∀ j < m,
      matGet L.update_parameters.W i j
        = matGet L.W i j - L.learning_rate * (L.W_gradients.map (fun g => matGet g i j)).sum) ∧
    (∀ j < m,
      L.update_parameters.b.getD j 0
        = L.b.getD j 0 - L.learning_rate * (L.b_gradients.map (fun g => g.getD j 0)).sum) ∧
    L.update_parameters.W_gradients = [] ∧
    L.update_parameters.b_gradients = [] ∧
    (∀ X, (L.forward_pass X).W = L.W ∧ (L.forward_pass X).b = L.b) ∧
    (∀ g, (L.backward_pass g).1.W = L.W ∧ (L.backward_pass g).1.b = L.b) := by
  refine ⟨?_, ?_, rfl, rfl, fun X => ⟨rfl, rfl⟩, fun g => ⟨rfl, rfl⟩⟩
  · intro i hi j hj
    cases hgs : L.W_gradients with
    | nil => simp [HiddenLayer.update_parameters, hgs]
    | cons g gs =>
      have hg : isMat g n m := hWg g (by simp [hgs])
      have hall : ∀ x ∈ gs, isMat x n m := fun x hx => hWg x (by simp [hgs, hx])
      have hS : isMat (gs.foldl matAdd g) n m := foldl_matAdd_isMat n m gs g hg hall
      have hWup : L.update_parameters.W
          = matSub L.W (matSmul L.learning_rate (gs.foldl matAdd g)) := by
        simp [HiddenLayer.update_parameters, hgs]
      rw [hWup]
      unfold matGet matSub
      rw [getD_zipWith vecSub L.W _ i (hW.1 ▸ hi)
        (by simp only [matSmul, List.length_map]; exact hS.1 ▸ hi) [] [] []]
      have hrowS : (matSmul L.learning_rate (gs.foldl matAdd g)).getD i []
          = vecSmul L.learning_rate ((gs.foldl matAdd g).getD i []) :=
        getD_map_lt _ _ i (hS.1 ▸ hi) [] []
      rw [hrowS]
      unfold vecSub vecSmul
      rw [getD_zipWith (· - ·) _ _ j (by rw [rowLen L.W n m i hW hi]; exact hj)
        (by simp only [List.length_map]; rw [rowLen _ n m i hS hi]; exact hj) 0 0 0]
      rw [getD_map_lt _ _ j (by rw [rowLen _ n m i hS hi]; exact hj) 0 0]
      have hfold := foldl_matAdd_matGet n m i j hi hj gs g hg hall
      unfold matGet at hfold
      rw [hfold]
      simp only [List.map_cons, List.sum_cons]
  · intro j hj
    cases hgs : L.b_gradients with
    | nil => simp [HiddenLayer.update_parameters, hgs]
    | cons g gs =>
      have hg : g.length = m := hbg g (by simp [hgs])
      have hall : ∀ x ∈ gs, x.length = m := fun x hx => hbg x (by simp [hgs, hx])
      have hS : (gs.foldl vecAdd g).length = m := foldl_vecAdd_length m gs g hg hall
      have hbup : L.update_parameters.b
          = vecSub L.b (vecSmul L.learning_rate (gs.foldl vecAdd g)) := by
        simp [HiddenLayer.update_parameters, hgs]
      rw [hbup]
      unfold vecSub vecSmul
      rw [getD_zipWith (· - ·) _ _ j (hb ▸ hj)
        (by simp only [List.length_map]; exact hS ▸ hj) 0 0 0]
      rw [getD_map_lt _ _ j (hS ▸ hj) 0 0]
      rw [foldl_vecAdd_getD m j hj gs g hg hall]
      simp only [List.map_cons, List.sum_cons]

/-- Witness for C3: the theorem applied to a concrete 2×2 layer holding
one accumulated gradient in each buffer. -/
theorem claim_C3_witness :
    (∀ i < 2, ∀ j < 2,
      matGet wLayer.update_parameters.W i j
        = matGet wLayer.W i j
          - wLayer.learning_rate * (wLayer.W_gradients.map (fun g => matGet g i j)).sum) ∧
    (∀ j < 2,
      wLayer.update_parameters.b.getD j 0
        = wLayer.b.getD j 0
          - wLayer.learning_rate * (wLayer.b_gradients.map (fun g => g.getD j 0)).sum) ∧
    wLayer.update_parameters.W_gradients = [] ∧
    wLayer.update_parameters.b_gradients = [] ∧
    (∀ X, (wLayer.forward_pass X).W = wLayer.W ∧ (wLayer.forward_pass X).b = wLayer.b) ∧
    (∀ g, (wLayer.backward_pass g).1.W = wLayer.W ∧ (wLayer.backward_pass g).1.b = wLayer.b) :=
  claim_C3_update_parameters wLayer 2 2 (by decide) (by decide) (by decide) (by decide)

/-! ## C7: update_parameters with empty buffers is a no-op -/

/-- C7: calling `update_parameters` on a `HiddenLayer` whose gradient
buffers are both empty is well-defined and leaves `W` and `b` unchanged
(and the buffers empty): `np.sum([], axis=0)` is the scalar `0.0`. -/
theorem claim_C7_update_empty_noop (L : HiddenLayer)
    (hW : L.W_gradients = []) (hb : L.b_gradients = []) :
    L.update_parameters.W = L.W ∧ L.update_parameters.b = L.b ∧
    L.update_parameters.W_gradients = [] ∧ L.update_parameters.b_gradients = [] := by
  simp [HiddenLayer.update_parameters, hW, hb]

/-- Witness for C7: the theorem applied to the concrete fresh layer. -/
theorem claim_C7_witness :
    cexLayer0.update_parameters.W = cexLayer0.W ∧
    cexLayer0.update_parameters.b = cexLayer0.b ∧
    cexLayer0.update_parameters.W_gradients = [] ∧
    cexLayer0.update_parameters.b_gradients = [] :=
  claim_C7_update_empty_noop cexLayer0 rfl rfl

/-! ## C8: gradient-buffer lengths track backward passes since last update -/

lemma foldl_applyHOp_lens :
    ∀ (ops : List HOp) (L : HiddenLayer),
      (ops.foldl applyHOp L).W_gradients.length = ops.foldl stepCount L.W_gradients.length ∧
      (ops.foldl applyHOp L).b_gradients.length = ops.foldl stepCount L.b_gradients.length := by
  intro ops
  induction ops with
  | nil => intro L; exact ⟨rfl, rfl⟩
  | cons op ops ih =>
    intro L
    have hstep : (applyHOp L op).W_gradients.length = stepCount L.W_gradients.length op ∧
        (applyHOp L op).b_gradients.length = stepCount L.b_gradients.length op := by
      cases op with
      | fwd X => exact ⟨rfl, rfl⟩
      | bwd g => constructor <;> simp [applyHOp, HiddenLayer.backward_pass, stepCount]
      | upd => exact ⟨rfl, rfl⟩
    simp only [List.foldl_cons]
    rw [← hstep.1, ← hstep.2]
    exact ih (applyHOp L op)

lemma foldl_stepCount_zero (ops : List HOp) :
    ops.foldl stepCount 0 = sinceLastUpdate ops := by
  induction ops using List.reverseRecOn with
  | nil => rfl
  | append_singleton ops op ih =>
    rw [List.foldl_append]
    cases op with
    | fwd X =>
      simp only [List.foldl_cons, List.foldl_nil, stepCount]
      rw [ih]
      unfold sinceLastUpdate
      rw [List.reverse_append]
      simp [isUpd, isBwd]
    | bwd g =>
      simp only [List.foldl_cons, List.foldl_nil, stepCount]
      rw [ih]
      unfold sinceLastUpdate
      rw [List.reverse_append]
      simp [isUpd, isBwd]
    | upd =>
      simp only [List.foldl_cons, List.foldl_nil, stepCount]
      unfold sinceLastUpdate
      rw [List.reverse_append]
      simp [isUpd]

/-- C8: starting from a `HiddenLayer` with empty gradient buffers, after
any sequence of layer operations both buffer lengths equal the number of
backward passes performed since the last parameter update; each
`backward_pass` appends exactly one entry to each buffer, and
`update_parameters` empties both atomically. -/
theorem claim_C8_buffer_invariant (L : HiddenLayer)
    (hW : L.W_gradients = []) (hb : L.b_gradients = []) (ops : List HOp) :
    (ops.foldl applyHOp L).W_gradients.length = sinceLastUpdate ops ∧
    (ops.foldl applyHOp L).b_gradients.length = sinceLastUpdate ops ∧
    (∀ (M : HiddenLayer) (g : Vec),
      (M.backward_pass g).1.W_gradients.length = M.W_gradients.length + 1 ∧
      (M.backward_pass g).1.b_gradients.length = M.b_gradients.length + 1) ∧
    (∀ M : HiddenLayer,
      M.update_parameters.W_gradients = [] ∧ M.update_parameters.b_gradients = []) := by
  refine ⟨?_, ?_, ?_, fun M => ⟨rfl, rfl⟩⟩
  · rw [(foldl_applyHOp_lens ops L).1, hW]
    simpa using foldl_stepCount_zero ops
  · rw [(foldl_applyHOp_lens ops L).2, hb]
    simpa using foldl_stepCount_zero ops
  · intro M g
    constructor <;> simp [HiddenLayer.backward_pass]

/-- Witness for C8: the theorem applied to the concrete fresh layer and a
concrete operation sequence with an update between backward passes. -/
theorem claim_C8_witness :
    (([HOp.fwd [1], .bwd [1], .bwd [1], .upd, .bwd [2]].foldl applyHOp cexLayer0).W_gradients.length
        = sinceLastUpdate [HOp.fwd [1], .bwd [1], .bwd [1], .upd, .bwd [2]]) ∧
    (([HOp.fwd [1], .bwd [1], .bwd [1], .upd, .bwd [2]].foldl applyHOp cexLayer0).b_gradients.length
        = sinceLastUpdate [HOp.fwd [1], .bwd [1], .bwd [1], .upd, .bwd [2]]) ∧
    (∀ (M : HiddenLayer) (g : Vec),
      (M.backward_pass g).1.W_gradients.length = M.W_gradients.length + 1 ∧
      (M.backward_pass g).1.b_gradients.length = M.b_gradients.length + 1) ∧
    (∀ M : HiddenLayer,
      M.update_parameters.W_gradients = [] ∧ M.update_parameters.b_gradients = []) :=
  claim_C8_buffer_invariant cexLayer0 rfl rfl _

/-! ## C2: single running sample counter across the whole run -/

/-- C2: the batch-update condition of `fit` tests the single running
counter `epoch*len(X_train) + i + 1`, which spans the entire multi-epoch
run (it is not reset per epoch), and fires exactly at multiples of
`batch_size`; the per-sample training step applies `netUpdate` exactly
when it fires; in particular with `batch_size = 4` and 8 training samples
the updates land at global sample indices 4 and 8, both for one epoch of
8 samples and for 2 epochs of 4 samples. -/
theorem claim_C2_running_batch_counter :
    (∀ n bs epoch i : ℕ,
      updateTrigger n bs epoch i = true ↔ (epoch * n + i + 1) % bs = 0) ∧
    (∀ (net : Network) (n epoch : ℕ) (acc : EpochAcc) (i : ℕ) (X y : Vec),
      (trainStep net n epoch acc (i, (X, y))).layers =
        (if updateTrigger n net.batch_size epoch i
         then netUpdate (netBackward (netForward acc.layers X).1
                (net.lossGrad (netForward acc.layers X).2 y)).1
         else (netBackward (netForward acc.layers X).1
                (net.lossGrad (netForward acc.layers X).2 y)).1)) ∧
    updateIndices 1 8 4 = [4, 8] ∧ updateIndices 2 4 4 = [4, 8] := by
  refine ⟨?_, ?_, by decide, by decide⟩
  · intro n bs epoch i
    simp [updateTrigger]
  · intro net n epoch acc i X y
    rfl

/-! ## Entry lemmas for the numpy products -/

lemma vecMatMul_length (x : Vec) (A : Mat) : (vecMatMul x A).length = numCols A := by
  simp [vecMatMul]

lemma vecMatMul_getD (x : Vec) (A : Mat) (k : ℕ) (hk : k < numCols A) :
    (vecMatMul x A).getD k 0 = dotV x (matCol A k) :=
  getD_range_map _ _ k hk 0

lemma matCol_length (A : Mat) (j : ℕ) : (matCol A j).length = A.length := by
  simp [matCol]

lemma matCol_getD (A : Mat) (j i : ℕ) (hi : i < A.length) :
    (matCol A j).getD i 0 = matGet A i j :=
  getD_map_lt _ _ i hi 0 []

lemma numCols_range_map (f : ℕ → Vec) (n : ℕ) (hn : 0 < n) :
    numCols ((List.range n).map f) = (f 0).length := by
  unfold numCols
  cases n with
  | zero => omega
  | succ n =>
    rw [List.range_succ_eq_map]
    simp

lemma getD_range_map_outer (f : ℕ → Vec) (n i : ℕ) (hi : i < n) :
    ((List.range n).map f).getD i [] = f i :=
  getD_range_map f n i hi []

/-! ## C6: softmax backward pass builds the full Jacobian -/

/-- C6: for a stored softmax output of length `n` and an upstream gradient
of length `n`, `SoftmaxLayer.backward_pass` returns a vector of length `n`
whose `j`-th entry is `Σᵢ upstream[i] * output[i] * (δᵢⱼ − output[j])`,
i.e. `upstream_gradient · J` for the Jacobian
`J[i][j] = output[i] (δᵢⱼ − output[j])`. -/
theorem claim_C6_softmax_backward (output g : Vec) (n : ℕ)
    (ho : output.length = n) (hg : g.length = n) :
    (softmaxBackward output g).length = n ∧
    ∀ j < n, (softmaxBackward output g).getD j 0 =
      ((List.range n).map (fun i => g.getD i 0 *
        (output.getD i 0 * ((if i = j then 1 else 0) - output.getD j 0)))).sum := by
  have hJlen : (softmaxJacobian output).length = n := by
    simp [softmaxJacobian, ho]
  have hJcols : numCols (softmaxJacobian output) = n := by
    cases hnn : n with
    | zero =>
      have : output = [] := List.length_eq_zero.mp (by rw [ho, hnn])
      simp [softmaxJacobian, this, numCols]
    | succ k =>
      unfold softmaxJacobian
      rw [ho, numCols_range_map _ _ (by omega)]
      simp [ho, hnn]
  constructor
  · rw [softmaxBackward, vecMatMul_length, hJcols]
  · intro j hj
    rw [softmaxBackward, vecMatMul_getD g _ j (by rw [hJcols]; exact hj)]
    rw [dotV_eq_sum g _ (by rw [matCol_length, hJlen, hg])]
    rw [hg]
    congr 1
    apply List.map_congr_left
    intro i hi
    have hi' : i < n := List.mem_range.mp hi
    rw [matCol_getD _ j i (by rw [hJlen]; exact hi')]
    unfold matGet softmaxJacobian
    rw [getD_range_map_outer _ _ i (by rw [ho]; exact hi')]
    rw [getD_range_map _ _ j (by rw [ho]; exact hj) 0]
    by_cases hij : i = j
    · subst hij
      rw [if_pos rfl, if_pos rfl]
      ring
    · rw [if_neg hij, if_neg hij]
      ring

/-- Witness for C6: the theorem applied to the stored output `[1/2, 1/2]`
and the upstream gradient `[1, 0]`. -/
theorem claim_C6_witness :
    (softmaxBackward [1/2, 1/2] [1, 0]).length = 2 ∧
    ∀ j < 2, (softmaxBackward [1/2, 1/2] [1, 0]).getD j 0 =
      ((List.range 2).map (fun i => ([1, 0] : Vec).getD i 0 *
        (([1/2, 1/2] : Vec).getD i 0 *
          ((if i = j then 1 else 0) - ([1/2, 1/2] : Vec).getD j 0)))).sum :=
  claim_C6_softmax_backward [1/2, 1/2] [1, 0] 2 (by decide) (by decide)

/-! ## C1: what the hidden backward pass actually returns -/

/-- C1 (amended): `HiddenLayer.backward_pass` builds the local-derivative
matrix by applying the activation's elementwise derivative to
`np.diag(upstream_gradient)` — entry `(i, j)` is `dact(upstream[i])` when
`i = j` and `dact(0)` otherwise — **not** from the stored output; the
returned downstream gradient is `upstream · (that matrix · Wᵗ)`, a vector
of length `input_size` with
`downstream[k] = Σᵢ upstream[i] Σⱼ dact(diag(upstream)[i][j]) W[k][j]`. -/
theorem claim_C1_backward_downstream (L : HiddenLayer) (n m : ℕ)
    (hW : isMat L.W n m) (hn : 0 < n) (hm : 0 < m) (J : Vec) (hJ : J.length = m) :
    (L.backward_pass J).2.length = n ∧
    ∀ k < n, (L.backward_pass J).2.getD k 0 =
      ((List.range m).map (fun i => J.getD i 0 *
        ((List.range m).map (fun j =>
          L.dact (if i = j then J.getD i 0 else 0) * matGet L.W k j)).sum)).sum := by
  have hWcols : numCols L.W = m := by
    rcases hWW : L.W with _ | ⟨r, rs⟩
    · rw [hWW] at hW
      have h0 : (0 : ℕ) = n := by simpa using hW.1
      omega
    · have hr : r.length = m := hW.2 r (by rw [hWW]; exact List.mem_cons_self r rs)
      simpa [numCols] using hr
  have hMeq : matMap L.dact (diagMat J) = (List.range m).map (fun i =>
      (List.range m).map (fun j => L.dact (if i = j then J.getD i 0 else 0))) := by
    unfold matMap diagMat
    rw [hJ]
    simp [List.map_map, Function.comp_def]
  have hWteq : matTranspose L.W = (List.range m).map (fun j => matCol L.W j) := by
    unfold matTranspose
    rw [hWcols]
  have hWtlen : (matTranspose L.W).length = m := by rw [hWteq]; simp
  have hWtcols : numCols (matTranspose L.W) = n := by
    rw [hWteq, numCols_range_map _ _ hm, matCol_length, hW.1]
  have hPeq : matMulM (matMap L.dact (diagMat J)) (matTranspose L.W)
      = (List.range m).map (fun i =>
          vecMatMul ((List.range m).map (fun j =>
            L.dact (if i = j then J.getD i 0 else 0))) (matTranspose L.W)) := by
    rw [hMeq]
    unfold matMulM
    rw [List.map_map]
    rfl
  have hPlen : (matMulM (matMap L.dact (diagMat J)) (matTranspose L.W)).length = m := by
    rw [hPeq]; simp
  have hPcols : numCols (matMulM (matMap L.dact (diagMat J)) (matTranspose L.W)) = n := by
    rw [hPeq, numCols_range_map _ _ hm, vecMatMul_length, hWtcols]
  have hds : (L.backward_pass J).2
      = vecMatMul J (matMulM (matMap L.dact (diagMat J)) (matTranspose L.W)) := rfl
  constructor
  · rw [hds, vecMatMul_length, hPcols]
  · intro k hk
    rw [hds, vecMatMul_getD J _ k (by rw [hPcols]; exact hk)]
    rw [dotV_eq_sum J _ (by rw [matCol_length, hPlen, hJ])]
    rw [hJ]
    congr 1
    apply List.map_congr_left
    intro i hi
    have hi' : i < m := List.mem_range.mp hi
    congr 1
    rw [matCol_getD _ k i (by rw [hPlen]; exact hi')]
    unfold matGet
    rw [hPeq, getD_range_map_outer _ _ i hi']
    rw [vecMatMul_getD _ _ k (by rw [hWtcols]; exact hk)]
    rw [dotV_eq_sum _ _ (by rw [matCol_length, hWtlen]; simp)]
    simp only [List.length_map, List.length_range]
    congr 1
    apply List.map_congr_left
    intro j hj
    have hj' : j < m := List.mem_range.mp hj
    rw [getD_range_map _ _ j hj' 0]
    rw [matCol_getD _ k j (by rw [hWtlen]; exact hj')]
    unfold matGet
    rw [hWteq, getD_range_map_outer _ _ j hj']
    rw [matCol_getD L.W j k (by rw [hW.1]; exact hk)]
    rfl

/-- Counterexample for C1 as stated: on the concrete Relu layer after the
matching forward call on `[1]` (stored output `[1]`, pre-activation `1`),
the upstream gradient `[-2]` makes the code return
`[-2] · (dact(diag([-2])) · Wᵗ) = [0]`, while the claim's construction —
the local derivative as a diagonal matrix from the stored output — yields
`[-2] · (diag(dact([1])) · Wᵗ) = [-2]`. -/
theorem claim_C1_counterexample :
    (cexLayer.backward_pass [-2]).2 ≠ specDownstreamGradient cexLayer [-2] := by
  have e1 : (cexLayer.backward_pass [-2]).2 = [0] := by
    norm_num [cexLayer, cexLayer0, HiddenLayer.backward_pass, HiddenLayer.forward_pass,
      vecMatMul, matMulM, matTranspose, matCol, numCols, dotV, matMap, diagMat, matGet,
      diagOf, outerP, rowBroadcastMul, vecAdd, reluApply, reluGradient, List.range_succ]
  have e2 : specDownstreamGradient cexLayer [-2] = [-2] := by
    norm_num [cexLayer, cexLayer0, specDownstreamGradient, HiddenLayer.forward_pass,
      vecMatMul, matMulM, matTranspose, matCol, numCols, dotV, matMap, diagMat, matGet,
      diagOf, outerP, rowBroadcastMul, vecAdd, reluApply, reluGradient, List.range_succ]
  rw [e1, e2]
  norm_num

/-- Witness for C1 (amended): the theorem applied to the concrete Relu
layer `cexLayer` (a 1 × 1 weight matrix) and the upstream gradient `[-2]`. -/
theorem claim_C1_witness :
    (cexLayer.backward_pass [-2]).2.length = 1 ∧
    ∀ k < 1, (cexLayer.backward_pass [-2]).2.getD k 0 =
      ((List.range 1).map (fun i => ([-2] : Vec).getD i 0 *
        ((List.range 1).map (fun j =>
          cexLayer.dact (if i = j then ([-2] : Vec).getD i 0 else 0)
            * matGet cexLayer.W k j)).sum)).sum :=
  claim_C1_backward_downstream cexLayer 1 1 (by decide) (by decide) (by decide) [-2] (by decide)

/-! ## C9: the validation pass is forward-only -/

lemma netForward_cons (l : NLayer) (rest : List NLayer) (X : Vec) :
    netForward (l :: rest) X
      = ((layerForward l X).1 :: (netForward rest (layerForward l X).2).1,
         (netForward rest (layerForward l X).2).2) := rfl

lemma netBackward_cons (l : NLayer) (rest : List NLayer) (g : Vec) :
    netBackward (l :: rest) g
      = ((layerBackward l (netBackward rest g).2).1 :: (netBackward rest g).1,
         (layerBackward l (netBackward rest g).2).2) := rfl

lemma hiddenParams_cons (l : NLayer) (ls : List NLayer) :
    hiddenParams (l :: ls)
      = (match l with
         | .hiddenL h => some (h.W, h.b, h.W_gradients, h.b_gradients)
         | _ => none) :: hiddenParams ls := rfl

lemma hiddenParams_layerForward (l : NLayer) (X : Vec) :
    (match (layerForward l X).1 with
     | NLayer.hiddenL h => some (h.W, h.b, h.W_gradients, h.b_gradients)
     | _ => none)
    = (match l with
       | NLayer.hiddenL h => some (h.W, h.b, h.W_gradients, h.b_gradients)
       | _ => none) := by
  cases l <;> rfl

lemma netForward_hiddenParams : ∀ (ls : List NLayer) (X : Vec),
    hiddenParams (netForward ls X).1 = hiddenParams ls := by
  intro ls
  induction ls with
  | nil => intro X; rfl
  | cons l rest ih =>
    intro X
    rw [netForward_cons]
    simp only [hiddenParams_cons]
    rw [hiddenParams_layerForward, ih]

lemma valStep_layers (net : Network) (acc : ValAcc) (p : Vec × Vec) :
    (valStep net acc p).layers = (netForward acc.layers p.1).1 := by
  obtain ⟨X, y⟩ := p
  unfold valStep
  dsimp only
  split <;> rfl

lemma valPhase_fold_hiddenParams (net : Network) :
    ∀ (pairs : List (Vec × Vec)) (acc : ValAcc),
      hiddenParams (pairs.foldl (valStep net) acc).layers = hiddenParams acc.layers := by
  intro pairs
  induction pairs with
  | nil => intro acc; rfl
  | cons p ps ih =>
    intro acc
    rw [List.foldl_cons, ih, valStep_layers, netForward_hiddenParams]

/-- C9: the per-epoch validation pass is forward-only: it leaves every
`HiddenLayer`'s `W`, `b`, `W_gradients` and `b_gradients` exactly as they
were — in particular, within `epochStep` with a validation set supplied,
exactly as they were at the end of that epoch's training phase. -/
theorem claim_C9_validation_forward_only (net : Network) (pairs : List (Vec × Vec)) (tl : ℕ) :
    hiddenParams (valPhase net pairs tl).layers = hiddenParams net.layers ∧
    ∀ (Xt yt xv yv : List Vec) (epoch : ℕ),
      hiddenParams (epochStep Xt yt (some xv) (some yv) net epoch).layers
        = hiddenParams (trainPhase net (Xt.zip yt) epoch).layers := by
  constructor
  · exact valPhase_fold_hiddenParams net pairs ⟨net.layers, 0, 0, List.replicate tl 0⟩
  · intro Xt yt xv yv epoch
    show hiddenParams (valPhase _ (xv.zip yv) (yv.headD []).length).layers = _
    unfold valPhase
    rw [valPhase_fold_hiddenParams]

/-! ## C4: shape of the four history sequences after fit -/

lemma epochStep_train_hist (Xt yt : List Vec) (Xv yv : Option (List Vec))
    (s : Network) (e : ℕ) :
    ((epochStep Xt yt Xv yv s e).train_loss).map Prod.fst
        = s.train_loss.map Prod.fst ++ [e] ∧
    ((epochStep Xt yt Xv yv s e).train_accuracy).map Prod.fst
        = s.train_accuracy.map Prod.fst ++ [e] := by
  cases Xv with
  | none => constructor <;> simp [epochStep]
  | some xv =>
    cases yv with
    | none => constructor <;> simp [epochStep]
    | some yv' => constructor <;> simp [epochStep]

lemma epochStep_val_hist_some (Xt yt xv yv' : List Vec) (s : Network) (e : ℕ) :
    ((epochStep Xt yt (some xv) (some yv') s e).val_loss).map Prod.fst
        = s.val_loss.map Prod.fst ++ [e] ∧
    ((epochStep Xt yt (some xv) (some yv') s e).val_accuracy).map Prod.fst
        = s.val_accuracy.map Prod.fst ++ [e] := by
  constructor <;> simp [epochStep]

lemma epochStep_val_hist_none (Xt yt : List Vec) (Xv yv : Option (List Vec))
    (h : Xv = none ∨ yv = none) (s : Network) (e : ℕ) :
    (epochStep Xt yt Xv yv s e).val_loss = s.val_loss ∧
    (epochStep Xt yt Xv yv s e).val_accuracy = s.val_accuracy := by
  cases Xv with
  | none => constructor <;> simp [epochStep]
  | some xv =>
    cases yv with
    | none => constructor <;> simp [epochStep]
    | some yv' => simp at h

lemma fit_fold_train_hist (Xt yt : List Vec) (Xv yv : Option (List Vec)) :
    ∀ (E : ℕ) (s : Network),
      (((List.range E).foldl (epochStep Xt yt Xv yv) s).train_loss).map Prod.fst
          = s.train_loss.map Prod.fst ++ List.range E ∧
      (((List.range E).foldl (epochStep Xt yt Xv yv) s).train_accuracy).map Prod.fst
          = s.train_accuracy.map Prod.fst ++ List.range E := by
  intro E
  induction E with
  | zero => intro s; simp
  | succ E ih =>
    intro s
    rw [List.range_succ, List.foldl_append, List.foldl_cons, List.foldl_nil]
    have h := epochStep_train_hist Xt yt Xv yv ((List.range E).foldl (epochStep Xt yt Xv yv) s) E
    constructor
    · rw [h.1, (ih s).1, List.append_assoc, ← List.range_succ]
    · rw [h.2, (ih s).2, List.append_assoc, ← List.range_succ]

lemma fit_fold_val_hist_some (Xt yt xv yv' : List Vec) :
    ∀ (E : ℕ) (s : Network),
      (((List.range E).foldl (epochStep Xt yt (some xv) (some yv')) s).val_loss).map Prod.fst
          = s.val_loss.map Prod.fst ++ List.range E ∧
      (((List.range E).foldl (epochStep Xt yt (some xv) (some yv')) s).val_accuracy).map Prod.fst
          = s.val_accuracy.map Prod.fst ++ List.range E := by
  intro E
  induction E with
  | zero => intro s; simp
  | succ E ih =>
    intro s
    rw [List.range_succ, List.foldl_append, List.foldl_cons, List.foldl_nil]
    have h := epochStep_val_hist_some Xt yt xv yv'
      ((List.range E).foldl (epochStep Xt yt (some xv) (some yv')) s) E
    constructor
    · rw [h.1, (ih s).1, List.append_assoc, ← List.range_succ]
    · rw [h.2, (ih s).2, List.append_assoc, ← List.range_succ]

lemma fit_fold_val_hist_none (Xt yt : List Vec) (Xv yv : Option (List Vec))
    (h : Xv = none ∨ yv = none) :
    ∀ (E : ℕ) (s : Network),
      ((List.range E).foldl (epochStep Xt yt Xv yv) s).val_loss = s.val_loss ∧
      ((List.range E).foldl (epochStep Xt yt Xv yv) s).val_accuracy = s.val_accuracy := by
  intro E
  induction E with
  | zero => intro s; simp
  | succ E ih =>
    intro s
    rw [List.range_succ, List.foldl_append, List.foldl_cons, List.foldl_nil]
    have hstep := epochStep_val_hist_none Xt yt Xv yv h
      ((List.range E).foldl (epochStep Xt yt Xv yv) s) E
    exact ⟨by rw [hstep.1, (ih s).1], by rw [hstep.2, (ih s).2]⟩

/-- C4 (amended): after every `fit` call with a non-empty training zip,
the two training history sequences hold exactly one entry per epoch, in
epoch order, having been cleared at the start of the call (whatever the
histories held before); the two validation history sequences do so when a
validation set is supplied, and are left empty otherwise. -/
theorem claim_C4_fit_histories (net : Network) (Xt yt : List Vec)
    (Xv yv : Option (List Vec)) (epochs : ℕ)
    (_hn : 0 < (Xt.zip yt).length) :
    (net.fit Xt yt Xv yv epochs).train_loss.map Prod.fst = List.range epochs ∧
    (net.fit Xt yt Xv yv epochs).train_accuracy.map Prod.fst = List.range epochs ∧
    (∀ xv yv', Xv = some xv → yv = some yv' →
      (net.fit Xt yt Xv yv epochs).val_loss.map Prod.fst = List.range epochs ∧
      (net.fit Xt yt Xv yv epochs).val_accuracy.map Prod.fst = List.range epochs) ∧
    (Xv = none ∨ yv = none →
      (net.fit Xt yt Xv yv epochs).val_loss = [] ∧
      (net.fit Xt yt Xv yv epochs).val_accuracy = []) := by
  unfold Network.fit
  refine ⟨?_, ?_, ?_, ?_⟩
  · simpa using (fit_fold_train_hist Xt yt Xv yv epochs _).1
  · simpa using (fit_fold_train_hist Xt yt Xv yv epochs _).2
  · intro xv yv' hx hy
    subst hx; subst hy
    exact ⟨by simpa using (fit_fold_val_hist_some Xt yt xv yv' epochs _).1,
           by simpa using (fit_fold_val_hist_some Xt yt xv yv' epochs _).2⟩
  · intro h
    exact ⟨by simpa using (fit_fold_val_hist_none Xt yt Xv yv h epochs _).1,
           by simpa using (fit_fold_val_hist_none Xt yt Xv yv h epochs _).2⟩

/-- Counterexample for C4 as stated: a `fit` call without a validation set
(`X_val = None`) leaves `val_loss` empty, so with one epoch the
validation-loss history does not have one entry per epoch. -/
theorem claim_C4_counterexample :
    ¬ ((cnet.fit [[1]] [[1]] none none 1).val_loss.map Prod.fst = List.range 1) := by
  have h : (cnet.fit [[1]] [[1]] none none 1).val_loss = [] := by
    simpa using (fit_fold_val_hist_none [[1]] [[1]] none none (Or.inl rfl) 1 _).1
  rw [h]
  simp

/-- Witness for C4 (amended): the theorem applied to the concrete
one-input-layer network with a validation set, for two epochs. -/
theorem claim_C4_witness :
    (cnet.fit [[1]] [[1]] (some [[1]]) (some [[1]]) 2).train_loss.map Prod.fst
        = List.range 2 ∧
    (cnet.fit [[1]] [[1]] (some [[1]]) (some [[1]]) 2).train_accuracy.map Prod.fst
        = List.range 2 ∧
    (∀ xv yv', (some [[1]] : Option (List Vec)) = some xv →
      (some [[1]] : Option (List Vec)) = some yv' →
      (cnet.fit [[1]] [[1]] (some [[1]]) (some [[1]]) 2).val_loss.map Prod.fst
          = List.range 2 ∧
      (cnet.fit [[1]] [[1]] (some [[1]]) (some [[1]]) 2).val_accuracy.map Prod.fst
          = List.range 2) ∧
    ((some [[1]] : Option (List Vec)) = none ∨ (some [[1]] : Option (List Vec)) = none →
      (cnet.fit [[1]] [[1]] (some [[1]]) (some [[1]]) 2).val_loss = [] ∧
      (cnet.fit [[1]] [[1]] (some [[1]]) (some [[1]]) 2).val_accuracy = []) :=
  claim_C4_fit_histories cnet [[1]] [[1]] (some [[1]]) (some [[1]]) 2 (by decide)

/-! ## C10: trailing samples leave unapplied gradients in the buffers -/

lemma gradLens_layerForward (l : NLayer) (X : Vec) :
    gradLens (layerForward l X).1 = gradLens l := by
  cases l <;> rfl

lemma gradLens_layerBackward (l : NLayer) (g : Vec) :
    gradLens (layerBackward l g).1
      = (gradLens l).map (fun p => (p.1 + 1, p.2 + 1)) := by
  cases l with
  | inputL => rfl
  | softmaxL E i o => rfl
  | hiddenL h => simp [layerBackward, HiddenLayer.backward_pass, gradLens]

lemma uniformLens_cons (l : NLayer) (ls : List NLayer) (k : ℕ) :
    uniformLens (l :: ls) k
      ↔ (gradLens l = none ∨ gradLens l = some (k, k)) ∧ uniformLens ls k := by
  unfold uniformLens
  simp

lemma uniformLens_netForward : ∀ (ls : List NLayer) (X : Vec) (k : ℕ),
    uniformLens ls k → uniformLens (netForward ls X).1 k := by
  intro ls
  induction ls with
  | nil => intro X k h; exact h
  | cons l rest ih =>
    intro X k h
    rw [netForward_cons]
    rw [uniformLens_cons] at h ⊢
    exact ⟨by rw [gradLens_layerForward]; exact h.1, ih _ k h.2⟩

lemma uniformLens_netBackward : ∀ (ls : List NLayer) (g : Vec) (k : ℕ),
    uniformLens ls k → uniformLens (netBackward ls g).1 (k + 1) := by
  intro ls
  induction ls with
  | nil => intro g k _ l hl; simp [netBackward] at hl
  | cons l rest ih =>
    intro g k h
    rw [netBackward_cons]
    rw [uniformLens_cons] at h
    rw [uniformLens_cons]
    constructor
    · rw [gradLens_layerBackward]
      rcases h.1 with h0 | h0 <;> rw [h0]
      · left; rfl
      · right; rfl
    · exact ih _ k h.2

lemma uniformLens_netUpdate (ls : List NLayer) : uniformLens (netUpdate ls) 0 := by
  intro l' hl'
  obtain ⟨l, _, rfl⟩ := List.mem_map.mp hl'
  cases l with
  | inputL => left; rfl
  | softmaxL E i o => left; rfl
  | hiddenL h => right; rfl

lemma mod_succ_of_ne_zero (c bs : ℕ) (hbs : 0 < bs) (h : (c + 1) % bs ≠ 0) :
    (c + 1) % bs = c % bs + 1 := by
  have h1 : (c + 1) % bs = (c % bs + 1) % bs := by
    conv_lhs => rw [← Nat.mod_add_div c bs]
    rw [Nat.add_right_comm, Nat.add_mul_mod_self_left]
  rw [h1] at h ⊢
  have hlt : c % bs < bs := Nat.mod_lt c hbs
  rcases Nat.lt_or_ge (c % bs + 1) bs with h2 | h2
  · exact Nat.mod_eq_of_lt h2
  · have heq : c % bs + 1 = bs := by omega
    rw [heq] at h
    exact absurd (Nat.mod_self bs) h

lemma trainStep_layers (net : Network) (n epoch : ℕ) (acc : EpochAcc) (i : ℕ) (X y : Vec) :
    (trainStep net n epoch acc (i, (X, y))).layers
      = (if updateTrigger n net.batch_size epoch i
         then netUpdate (netBackward (netForward acc.layers X).1
                (net.lossGrad (netForward acc.layers X).2 y)).1
         else (netBackward (netForward acc.layers X).1
                (net.lossGrad (netForward acc.layers X).2 y)).1) := rfl

lemma uniformLens_trainStep (net : Network) (n epoch i : ℕ) (acc : EpochAcc) (X y : Vec)
    (hbs : 0 < net.batch_size)
    (h : uniformLens acc.layers ((epoch * n + i) % net.batch_size)) :
    uniformLens (trainStep net n epoch acc (i, (X, y))).layers
      ((epoch * n + i + 1) % net.batch_size) := by
  rw [trainStep_layers]
  by_cases ht : updateTrigger n net.batch_size epoch i
  · rw [if_pos ht]
    have h0 : (epoch * n + i + 1) % net.batch_size = 0 := by
      simpa [updateTrigger] using ht
    rw [h0]
    exact uniformLens_netUpdate _
  · rw [if_neg ht]
    have hne : (epoch * n + i + 1) % net.batch_size ≠ 0 := by
      simpa [updateTrigger] using ht
    rw [mod_succ_of_ne_zero _ _ hbs hne]
    exact uniformLens_netBackward _ _ _ (uniformLens_netForward _ _ _ h)

lemma uniformLens_trainFold (net : Network) (n epoch : ℕ) (hbs : 0 < net.batch_size) :
    ∀ (samples : List (Vec × Vec)) (j : ℕ) (acc : EpochAcc),
      uniformLens acc.layers ((epoch * n + j) % net.batch_size) →
      uniformLens ((samples.enumFrom j).foldl (trainStep net n epoch) acc).layers
        ((epoch * n + j + samples.length) % net.batch_size) := by
  intro samples
  induction samples with
  | nil => intro j acc h; simpa using h
  | cons p ps ih =>
    intro j acc h
    obtain ⟨X, y⟩ := p
    rw [List.enumFrom_cons, List.foldl_cons]
    have hstep := uniformLens_trainStep net n epoch j acc X y hbs h
    have hnext := ih (j + 1) (trainStep net n epoch acc (j, (X, y)))
      (by rw [show epoch * n + (j + 1) = epoch * n + j + 1 from by ring]; exact hstep)
    rw [List.length_cons,
      show epoch * n + j + (ps.length + 1) = epoch * n + (j + 1) + ps.length from by ring]
    exact hnext

lemma uniformLens_trainPhase (net : Network) (pairs : List (Vec × Vec)) (epoch : ℕ)
    (hbs : 0 < net.batch_size)
    (h : uniformLens net.layers ((epoch * pairs.length) % net.batch_size)) :
    uniformLens (trainPhase net pairs epoch).layers
      ((epoch * pairs.length + pairs.length) % net.batch_size) := by
  have hfold := uniformLens_trainFold net pairs.length epoch hbs pairs 0
    ⟨net.layers, 0, 0⟩ (by simpa using h)
  unfold trainPhase
  have henum : pairs.enum = pairs.enumFrom 0 := rfl
  rw [henum]
  simpa using hfold

lemma uniformLens_valPhase_fold (net : Network) :
    ∀ (pairs : List (Vec × Vec)) (acc : ValAcc) (k : ℕ),
      uniformLens acc.layers k → uniformLens (pairs.foldl (valStep net) acc).layers k := by
  intro pairs
  induction pairs with
  | nil => intro acc k h; exact h
  | cons p ps ih =>
    intro acc k h
    rw [List.foldl_cons]
    apply ih
    rw [valStep_layers]
    exact uniformLens_netForward _ _ _ h

lemma uniformLens_epochStep (Xt yt : List Vec) (Xv yv : Option (List Vec)) (net : Network)
    (epoch : ℕ) (hbs : 0 < net.batch_size)
    (h : uniformLens net.layers ((epoch * (Xt.zip yt).length) % net.batch_size)) :
    uniformLens (epochStep Xt yt Xv yv net epoch).layers
      (((epoch + 1) * (Xt.zip yt).length) % net.batch_size) ∧
    (epochStep Xt yt Xv yv net epoch).batch_size = net.batch_size := by
  have htrain := uniformLens_trainPhase net (Xt.zip yt) epoch hbs h
  have harith : epoch * (Xt.zip yt).length + (Xt.zip yt).length
      = (epoch + 1) * (Xt.zip yt).length := by ring
  rw [harith] at htrain
  cases Xv with
  | none => exact ⟨htrain, rfl⟩
  | some xv =>
    cases yv with
    | none => exact ⟨htrain, rfl⟩
    | some yv' =>
      constructor
      · show uniformLens (valPhase _ _ _).layers _
        unfold valPhase
        exact uniformLens_valPhase_fold _ _ _ _ htrain
      · rfl

lemma uniformLens_fit_fold (Xt yt : List Vec) (Xv yv : Option (List Vec)) (bs : ℕ)
    (hbs : 0 < bs) :
    ∀ (E : ℕ) (s : Network), s.batch_size = bs → uniformLens s.layers 0 →
      uniformLens ((List.range E).foldl (epochStep Xt yt Xv yv) s).layers
        ((E * (Xt.zip yt).length) % bs) ∧
      ((List.range E).foldl (epochStep Xt yt Xv yv) s).batch_size = bs := by
  intro E
  induction E with
  | zero =>
    intro s hs h0
    exact ⟨by simpa using h0, by simpa using hs⟩
  | succ E ih =>
    intro s hs h0
    rw [List.range_succ, List.foldl_append, List.foldl_cons, List.foldl_nil]
    have hp := ih s hs h0
    have hpbs : 0 < ((List.range E).foldl (epochStep Xt yt Xv yv) s).batch_size := by
      rw [hp.2]; exact hbs
    have hstep := uniformLens_epochStep Xt yt Xv yv
      ((List.range E).foldl (epochStep Xt yt Xv yv) s) E hpbs (by rw [hp.2]; exact hp.1)
    constructor
    · rw [← hp.2]
      exact hstep.1
    · rw [hstep.2, hp.2]

/-- C10: when `epochs * len(X_train)` is not a multiple of `batch_size`,
`fit` performs no final flush: starting from empty gradient buffers, every
`HiddenLayer` of the returned network still holds exactly
`(epochs * len(X_train)) mod batch_size` unapplied per-sample gradient
contributions in each buffer — the trailing samples never contributed to
any weight or bias update during the call. -/
theorem claim_C10_no_final_flush (net : Network) (Xt yt : List Vec)
    (Xv yv : Option (List Vec)) (epochs : ℕ)
    (hbs : 0 < net.batch_size) (_hn : 0 < (Xt.zip yt).length)
    (h0 : uniformLens net.layers 0) :
    uniformLens (net.fit Xt yt Xv yv epochs).layers
      ((epochs * (Xt.zip yt).length) % net.batch_size) := by
  unfold Network.fit
  exact (uniformLens_fit_fold Xt yt Xv yv net.batch_size hbs epochs
    { net with train_loss := [], train_accuracy := [], val_loss := [], val_accuracy := [] }
    rfl h0).1

/-- Witness for C10: the theorem applied to the concrete three-layer
network with `batch_size = 2` and 3 training samples for one epoch, so
`3 mod 2 = 1` gradient is left in each buffer of the hidden layer. -/
theorem claim_C10_witness :
    uniformLens (hnet.fit [[1], [1], [1]] [[1], [1], [1]] none none 1).layers
      ((1 * (([[1], [1], [1]] : List Vec).zip ([[1], [1], [1]] : List Vec)).length)
        % hnet.batch_size) :=
  claim_C10_no_final_flush hnet [[1], [1], [1]] [[1], [1], [1]] none none 1
    (by decide) (by decide) (by decide)

end NN
